import Mathlib

/-!
Verification of the flashcard algorithm core (`src/algorithm.ts`).

The TypeScript code works over `BucketMap = Map<number, Set<Flashcard>>` and
`Array<Set<Flashcard>>`.  JavaScript `Set` objects are mutable references, and
`update` copies the map shallowly (`new Map(buckets)`) so the two maps share
their `Set` objects.  To capture this aliasing faithfully, sets live in an
explicit heap (`Heap`, a list of finite card sets indexed by `Nat`), and a
bucket map is an insertion-ordered association list of bucket number and set
reference (`BMap`), mirroring a JavaScript `Map`'s key-to-reference entries in
insertion order.  Cards are compared by object identity in the source, modelled
here by a `Card := Nat` identity.
-/

namespace Flashcards

/-- Cards in the bucket structures are compared by JavaScript object identity;
a card is modelled by its identity. -/
abbrev Card := Nat

/-- Heap of `Set` objects: position `r` holds the current contents of the set
referenced by `r`; a reference to a JavaScript `Set` object is its heap index. -/
abbrev Heap := List (Finset Card)

/-- Bucket map (`BucketMap`): entries `(bucket number, set reference)` in
insertion order, as in a JavaScript `Map`. -/
abbrev BMap := List (Nat × Nat)

/-- Contents of the set referenced by `r` (an unallocated reference reads as
empty; valid states never use one). -/
def readRef (h : Heap) (r : Nat) : Finset Card := h.getD r ∅

/-- First entry with the given key, as `Map.get`. -/
def lookupRef : BMap → Nat → Option Nat
  | [], _ => none
  | (k, r) :: rest, i => if k = i then some r else lookupRef rest i

/-- Cards currently in bucket `i` of map `m`, read through the heap. -/
def cardsAt (h : Heap) (m : BMap) (i : Nat) : Finset Card :=
  match lookupRef m i with
  | some r => readRef h r
  | none => ∅

/-- Validity of a bucket map as a JavaScript `Map` of distinct `Set` objects:
keys are distinct, the set references are distinct objects, and every
reference is allocated. -/
abbrev ValidMap (h : Heap) (m : BMap) : Prop :=
  (m.map Prod.fst).Nodup ∧ (m.map Prod.snd).Nodup ∧ ∀ p ∈ m, p.2 < h.length

/-- Exclusivity invariant: the sets of distinct entries are disjoint, so a card
appears in at most one bucket of the mapping. -/
abbrev Exclusive (h : Heap) (m : BMap) : Prop :=
  m.Pairwise fun p q => readRef h p.2 ∩ readRef h q.2 = ∅

/-- Answer difficulty. Modelled from the spec: the `AnswerDifficulty`
enumeration lives in `src/flashcards.ts`, which is not part of the provided
sources; per the spec it is the three-level outcome {Wrong, Hard, Easy}. -/
inductive AnswerDifficulty where
  | Wrong
  | Hard
  | Easy
deriving DecidableEq

/-- Total number of cards across all buckets of the mapping. -/
def totalCount (h : Heap) (m : BMap) : Nat :=
  (m.map fun p => (readRef h p.2).card).sum

/- ## practice (src/algorithm.ts lines 63-86)

The body that would implement the Modified-Leitner selection is commented out
in the source; the function builds an empty `Set` and returns it. -/

/-- The `practice` function as implemented: returns the freshly created empty
practice set (its selection loop is commented out in the source). -/
def practice (_buckets : List (Finset Card)) (_day : Nat) : Finset Card := ∅

/-- Review intervals for buckets 1..4. -/
def intervals : List Nat := [4, 10, 30, 100]

/-- Whether bucket `i` is due on day `day` under the intended policy. -/
def isDue (i day : Nat) : Bool :=
  if i = 0 then true
  else if i ≤ 4 then day % (intervals.getD (i - 1) 1) = 0
  else false

/-- Modelled from the spec: the intended Modified-Leitner selection of §4.3
(the implementation of `practice` is commented out in the source): bucket 0 is
due every day, bucket `i` for `i` in 1..4 is due when `day % r i = 0` with
intervals `[4, 10, 30, 100]`, buckets beyond 4 are never selected; the result
is the union of the cards of all due buckets. -/
def practiceIntended (buckets : List (Finset Card)) (day : Nat) : Finset Card :=
  ((List.range buckets.length).filter fun i => isDue i day).foldr
    (fun i acc => buckets.getD i ∅ ∪ acc) ∅

/- ## update (src/algorithm.ts lines 97-141)

`const updatedBuckets = new Map(buckets)` copies the entry list but shares the
`Set` objects, so the returned map is the same association list `m` (until a
missing destination key is appended) while all set mutation happens on the
shared heap. -/

/-- The find-and-delete scan of `update`: walk the entries in insertion order;
at the first set containing the card, delete the card from that (shared) set
and stop, reporting the bucket number; report `none` when no set contains the
card. -/
def findAndRemove (h : Heap) : BMap → Card → Heap × Option Nat
  | [], _ => (h, none)
  | (k, r) :: rest, c =>
    if c ∈ readRef h r then (h.set r ((readRef h r).erase c), some k)
    else findAndRemove h rest c

/-- Bucket in which the scan of `update` finds the card (first entry whose set
contains it), without the deletion. -/
def findCurrent (h : Heap) : BMap → Card → Option Nat
  | [], _ => none
  | (k, r) :: rest, c =>
    if c ∈ readRef h r then some k else findCurrent h rest c

/-- Destination bucket of `update`: `Wrong` to 0, `Hard` to
`max(0, current - 1)` (truncated subtraction), `Easy` to
`min(4, current + 1)`. -/
def targetBucket (current : Nat) (difficulty : AnswerDifficulty) : Nat :=
  match difficulty with
  | .Wrong => 0
  | .Hard => current - 1
  | .Easy => min 4 (current + 1)

/-- The `update` function.  The shallow copy `new Map(buckets)` shares entry
references with the input, so the scan's deletion and the insertion into an
existing destination set act on the shared heap; only a missing destination
bucket gets a fresh set, appended in insertion order as `Map.set` does.
Returns the final heap together with the returned map's entry list. -/
def update (h : Heap) (m : BMap) (card : Card) (difficulty : AnswerDifficulty) :
    Heap × BMap :=
  let fr := findAndRemove h m card
  let current := fr.2.getD 0
  let newBucket := targetBucket current difficulty
  match lookupRef m newBucket with
  | some r => (fr.1.set r (insert card (readRef fr.1 r)), m)
  | none => (fr.1 ++ [{card}], m ++ [(newBucket, fr.1.length)])

/-- A finite sequence of `update` calls, threaded through heap and map. -/
def runUpdates (h : Heap) (m : BMap) : List (Card × AnswerDifficulty) → Heap × BMap
  | [] => (h, m)
  | (c, d) :: rest =>
    let u := update h m c d
    runUpdates u.1 u.2 rest

/- ## toBucketSets (src/algorithm.ts lines 21-31) -/

/-- Value of `Math.max(...buckets.keys(), -1)`. -/
def maxKey (m : BMap) : Int :=
  m.foldr (fun p acc => max (p.1 : Int) acc) (-1)

/-- The `toBucketSets` function: an array of `maxKey + 1` fresh empty sets,
then each entry's set is written at its bucket index.  The result is the array
of set contents (the source array holds references to the shared sets; the
claims about it concern contents only). -/
def toBucketSets (h : Heap) (m : BMap) : List (Finset Card) :=
  m.foldl (fun arr p => arr.set p.1 (readRef h p.2))
    (List.replicate (maxKey m + 1).toNat (∅ : Finset Card))

/- ## getHint (src/algorithm.ts lines 150-158) -/

/-- Flashcard value. Modelled from the spec and the test constructor calls:
`src/flashcards.ts` is not part of the provided sources; per the spec a card
has front text, back text, optional hint text (empty string when absent, as in
the tests) and an ordered tag list. -/
structure Flashcard where
  front : String
  back : String
  hint : String
  tags : List String
deriving DecidableEq

/-- Model of JavaScript `String.prototype.trim`: strip leading and trailing
whitespace characters. -/
def trim (s : String) : String :=
  ⟨((s.data.dropWhile Char.isWhitespace).reverse.dropWhile Char.isWhitespace).reverse⟩

/-- The `getHint` function: the predefined hint when it is truthy and not
whitespace-only, else the tag template, else the front-prefix template. -/
def getHint (card : Flashcard) : String :=
  if card.hint ≠ "" ∧ trim card.hint ≠ "" then
    card.hint
  else if card.tags.length > 0 then
    "Try to remember a card related to: " ++ String.intercalate (", ") card.tags
  else
    "First few characters: " ++ card.front.take 5 ++ "..."

/- ## computeProgress (src/algorithm.ts lines 167-191)

The source takes `buckets: any` and dispatches on `Array.isArray(buckets)`,
then `buckets instanceof Map`, with a fall-through for every other value;
the runtime type test is modelled by a tagged variant.  JavaScript's sparse
array assignment `bucketDistribution[bucketNum] = size` (holes for skipped
indices) is modelled by `List (Option Nat)` with `none` for a hole. -/

/-- Runtime shape of the `buckets` argument of `computeProgress`: an array of
sets, a `Map` (set contents read through the heap), or any other value. -/
inductive BucketsInput where
  | arr : List (Finset Card) → BucketsInput
  | map : BMap → BucketsInput
  | other : BucketsInput

/-- Progress summary: total cards and the (possibly sparse) per-bucket
distribution. -/
structure Progress where
  totalCards : Nat
  bucketDistribution : List (Option Nat)
deriving DecidableEq

/-- JavaScript sparse-array assignment `l[i] = v`: in-place when `i` is in
bounds, otherwise the array grows with holes up to index `i`. -/
def setSparse (l : List (Option Nat)) (i : Nat) (v : Nat) : List (Option Nat) :=
  if i < l.length then l.set i (some v)
  else l ++ List.replicate (i - l.length) none ++ [some v]

/-- The `computeProgress` function.  The `history` parameter is accepted and
unused, as in the source. -/
def computeProgress {α : Type} (h : Heap) (buckets : BucketsInput) (_history : α) :
    Progress :=
  match buckets with
  | .arr bs =>
      bs.enum.foldl
        (fun pr ib =>
          ⟨pr.totalCards + ib.2.card, setSparse pr.bucketDistribution ib.1 ib.2.card⟩)
        ⟨0, []⟩
  | .map m =>
      m.foldl
        (fun pr p =>
          ⟨pr.totalCards + (readRef h p.2).card,
            setSparse pr.bucketDistribution p.1 (readRef h p.2).card⟩)
        ⟨0, []⟩
  | .other => ⟨0, []⟩

/-! ### Basic lemmas about the heap and map model -/

theorem readRef_set_self (h : Heap) {r : Nat} (s : Finset Card) (hr : r < h.length) :
    readRef (h.set r s) r = s := by
  simp [readRef, List.getElem?_set_self hr]

theorem readRef_set_ne (h : Heap) {r r' : Nat} (s : Finset Card) (hne : r ≠ r') :
    readRef (h.set r s) r' = readRef h r' := by
  simp [readRef, List.getElem?_set_ne hne]

theorem readRef_append_lt (h l : Heap) {r : Nat} (hr : r < h.length) :
    readRef (h ++ l) r = readRef h r := by
  simp [readRef, List.getElem?_append_left hr]

theorem readRef_append_self (h : Heap) (s : Finset Card) :
    readRef (h ++ [s]) h.length = s := by
  simp only [readRef, List.getD_eq_getElem?_getD,
    List.getElem?_append_right (le_refl h.length)]
  simp

theorem lookupRef_mem {m : BMap} {i : Nat} {r : Nat} (hl : lookupRef m i = some r) :
    (i, r) ∈ m := by
  induction m with
  | nil => simp [lookupRef] at hl
  | cons p rest ih =>
    obtain ⟨k, r0⟩ := p
    by_cases hk : k = i
    · subst hk
      simp [lookupRef] at hl
      subst hl
      exact List.mem_cons_self _ _
    · simp only [lookupRef, if_neg hk] at hl
      exact List.mem_cons_of_mem _ (ih hl)

theorem mem_lookupRef {m : BMap} (hk : (m.map Prod.fst).Nodup) {i : Nat} {r : Nat}
    (hmem : (i, r) ∈ m) : lookupRef m i = some r := by
  induction m with
  | nil => simp at hmem
  | cons p rest ih =>
    obtain ⟨k, r0⟩ := p
    simp only [List.map_cons, List.nodup_cons] at hk
    rcases List.mem_cons.1 hmem with heq | hrest
    · cases heq
      simp [lookupRef]
    · have hk_ne : k ≠ i := by
        intro hki
        subst hki
        exact hk.1 (List.mem_map.2 ⟨(k, r), hrest, rfl⟩)
      simp only [lookupRef, if_neg hk_ne]
      exact ih hk.2 hrest

theorem lookupRef_eq_none {m : BMap} {i : Nat} (hnk : i ∉ m.map Prod.fst) :
    lookupRef m i = none := by
  induction m with
  | nil => rfl
  | cons p rest ih =>
    simp only [List.map_cons, List.mem_cons, not_or] at hnk
    obtain ⟨k, r0⟩ := p
    have hk_ne : k ≠ i := Ne.symm hnk.1
    simp only [lookupRef, if_neg hk_ne]
    exact ih hnk.2

theorem key_of_lookupRef {m : BMap} {i : Nat} {r : Nat} (hl : lookupRef m i = some r) :
    i ∈ m.map Prod.fst :=
  List.mem_map.2 ⟨(i, r), lookupRef_mem hl, rfl⟩

theorem lookupRef_append_some {m l : BMap} {i : Nat} {r : Nat}
    (hl : lookupRef m i = some r) : lookupRef (m ++ l) i = some r := by
  induction m with
  | nil => simp [lookupRef] at hl
  | cons p rest ih =>
    obtain ⟨k, r0⟩ := p
    by_cases hk : k = i
    · subst hk
      simp [lookupRef] at hl
      simp [lookupRef, hl]
    · simp only [lookupRef, if_neg hk] at hl
      simp only [List.cons_append, lookupRef, if_neg hk]
      exact ih hl

theorem lookupRef_append_none {m l : BMap} {i : Nat} (hl : lookupRef m i = none) :
    lookupRef (m ++ l) i = lookupRef l i := by
  induction m with
  | nil => rfl
  | cons p rest ih =>
    obtain ⟨k, r0⟩ := p
    by_cases hk : k = i
    · subst hk
      simp [lookupRef] at hl
    · simp only [lookupRef, if_neg hk] at hl ⊢
      exact ih hl

theorem mem_cardsAt {h : Heap} {m : BMap} {i : Nat} {c : Card} :
    c ∈ cardsAt h m i ↔ ∃ r, lookupRef m i = some r ∧ c ∈ readRef h r := by
  unfold cardsAt
  cases hl : lookupRef m i <;> simp

theorem cardsAt_eq_readRef {h : Heap} {m : BMap} (hk : (m.map Prod.fst).Nodup)
    {i : Nat} {r : Nat} (hmem : (i, r) ∈ m) : cardsAt h m i = readRef h r := by
  simp [cardsAt, mem_lookupRef hk hmem]

theorem cardsAt_eq_empty {h : Heap} {m : BMap} {i : Nat} (hnk : i ∉ m.map Prod.fst) :
    cardsAt h m i = ∅ := by
  simp [cardsAt, lookupRef_eq_none hnk]

/-! ### Exclusivity helpers -/

theorem exclusive_disjoint {h : Heap} {m : BMap} (hx : Exclusive h m)
    {p q : Nat × Nat} (hp : p ∈ m) (hq : q ∈ m) (hne : p ≠ q) :
    readRef h p.2 ∩ readRef h q.2 = ∅ := by
  have hsym : Symmetric fun p q : Nat × Nat => readRef h p.2 ∩ readRef h q.2 = ∅ := by
    intro a b hab
    rw [Finset.inter_comm]
    exact hab
  exact List.Pairwise.forall hsym hx hp hq hne

theorem exclusive_unique {h : Heap} {m : BMap} (hx : Exclusive h m)
    {p q : Nat × Nat} (hp : p ∈ m) (hq : q ∈ m) {c : Card}
    (hcp : c ∈ readRef h p.2) (hcq : c ∈ readRef h q.2) : p = q := by
  by_contra hne
  have hd := exclusive_disjoint hx hp hq hne
  have hmem : c ∈ readRef h p.2 ∩ readRef h q.2 := Finset.mem_inter.2 ⟨hcp, hcq⟩
  rw [hd] at hmem
  exact absurd hmem (Finset.not_mem_empty c)

theorem valid_key_eq_iff_ref_eq {h : Heap} {m : BMap} (hv : ValidMap h m)
    {i j : Nat} {r s : Nat} (hp : (i, r) ∈ m) (hq : (j, s) ∈ m) :
    i = j ↔ r = s := by
  obtain ⟨hk, hr, _⟩ := hv
  constructor
  · intro hij
    have := List.inj_on_of_nodup_map hk hp hq (by simpa using hij)
    cases this
    rfl
  · intro hrs
    have := List.inj_on_of_nodup_map hr hp hq (by simpa using hrs)
    cases this
    rfl

/-! ### Lemmas about the find-and-delete scan -/

theorem findAndRemove_length (h : Heap) (m : BMap) (c : Card) :
    (findAndRemove h m c).1.length = h.length := by
  induction m with
  | nil => rfl
  | cons p rest ih =>
    obtain ⟨k, r⟩ := p
    by_cases hc : c ∈ readRef h r
    · simp [findAndRemove, hc]
    · simpa [findAndRemove, hc] using ih

theorem findAndRemove_snd (h : Heap) (m : BMap) (c : Card) :
    (findAndRemove h m c).2 = findCurrent h m c := by
  induction m with
  | nil => rfl
  | cons p rest ih =>
    obtain ⟨k, r⟩ := p
    by_cases hc : c ∈ readRef h r
    · simp [findAndRemove, findCurrent, hc]
    · simpa [findAndRemove, findCurrent, hc] using ih

theorem findCurrent_of_absent {h : Heap} {m : BMap} {c : Card}
    (hab : ∀ p ∈ m, c ∉ readRef h p.2) : findCurrent h m c = none := by
  induction m with
  | nil => rfl
  | cons p rest ih =>
    obtain ⟨k, r⟩ := p
    have hk : c ∉ readRef h r := hab (k, r) (List.mem_cons_self _ _)
    simp only [findCurrent, if_neg hk]
    exact ih fun q hq => hab q (List.mem_cons_of_mem _ hq)

theorem findAndRemove_of_absent {h : Heap} {m : BMap} {c : Card}
    (hab : ∀ p ∈ m, c ∉ readRef h p.2) : findAndRemove h m c = (h, none) := by
  induction m with
  | nil => rfl
  | cons p rest ih =>
    obtain ⟨k, r⟩ := p
    have hk : c ∉ readRef h r := hab (k, r) (List.mem_cons_self _ _)
    simp only [findAndRemove, if_neg hk]
    exact ih fun q hq => hab q (List.mem_cons_of_mem _ hq)

theorem findCurrent_of_found {h : Heap} {m : BMap} (hx : Exclusive h m)
    {k : Nat} {r : Nat} {c : Card} (hmem : (k, r) ∈ m) (hc : c ∈ readRef h r) :
    findCurrent h m c = some k := by
  induction m with
  | nil => simp at hmem
  | cons p rest ih =>
    obtain ⟨k0, r0⟩ := p
    obtain ⟨hx1, hx2⟩ := List.pairwise_cons.1 hx
    by_cases h0 : c ∈ readRef h r0
    · have heq : (k, r) = (k0, r0) := by
        rcases List.mem_cons.1 hmem with hh | hrest
        · exact hh
        · exfalso
          have hd := hx1 (k, r) hrest
          have : c ∈ readRef h r0 ∩ readRef h r := Finset.mem_inter.2 ⟨h0, hc⟩
          rw [hd] at this
          exact absurd this (Finset.not_mem_empty c)
      cases heq
      simp [findCurrent, hc]
    · have hrest : (k, r) ∈ rest := by
        rcases List.mem_cons.1 hmem with hh | hrest
        · cases hh; exact absurd hc h0
        · exact hrest
      simp only [findCurrent, if_neg h0]
      exact ih hx2 hrest

theorem findAndRemove_of_found {h : Heap} {m : BMap} (hx : Exclusive h m)
    {k : Nat} {r : Nat} {c : Card} (hmem : (k, r) ∈ m) (hc : c ∈ readRef h r) :
    findAndRemove h m c = (h.set r ((readRef h r).erase c), some k) := by
  induction m with
  | nil => simp at hmem
  | cons p rest ih =>
    obtain ⟨k0, r0⟩ := p
    obtain ⟨hx1, hx2⟩ := List.pairwise_cons.1 hx
    by_cases h0 : c ∈ readRef h r0
    · have heq : (k, r) = (k0, r0) := by
        rcases List.mem_cons.1 hmem with hh | hrest
        · exact hh
        · exfalso
          have hd := hx1 (k, r) hrest
          have : c ∈ readRef h r0 ∩ readRef h r := Finset.mem_inter.2 ⟨h0, hc⟩
          rw [hd] at this
          exact absurd this (Finset.not_mem_empty c)
      cases heq
      simp [findAndRemove, hc]
    · have hrest : (k, r) ∈ rest := by
        rcases List.mem_cons.1 hmem with hh | hrest
        · cases hh; exact absurd hc h0
        · exact hrest
      simp only [findAndRemove, if_neg h0]
      exact ih hx2 hrest

/-! ### Shape of `update` in each of its four cases -/

theorem update_absent_existing {h : Heap} {m : BMap} {c : Card} {d : AnswerDifficulty}
    {r2 : Nat} (hab : ∀ p ∈ m, c ∉ readRef h p.2)
    (hl2 : lookupRef m (targetBucket 0 d) = some r2) :
    update h m c d = (h.set r2 (insert c (readRef h r2)), m) := by
  simp only [update, findAndRemove_of_absent hab, Option.getD_none, hl2]

theorem update_absent_missing {h : Heap} {m : BMap} {c : Card} {d : AnswerDifficulty}
    (hab : ∀ p ∈ m, c ∉ readRef h p.2)
    (hl2 : lookupRef m (targetBucket 0 d) = none) :
    update h m c d = (h ++ [{c}], m ++ [(targetBucket 0 d, h.length)]) := by
  simp only [update, findAndRemove_of_absent hab, Option.getD_none, hl2]

theorem update_found_existing {h : Heap} {m : BMap} {c : Card} {d : AnswerDifficulty}
    {k : Nat} {r r2 : Nat} (hx : Exclusive h m) (hmem : (k, r) ∈ m)
    (hc : c ∈ readRef h r) (hl2 : lookupRef m (targetBucket k d) = some r2) :
    update h m c d =
      ((h.set r ((readRef h r).erase c)).set r2
        (insert c (readRef (h.set r ((readRef h r).erase c)) r2)), m) := by
  simp only [update, findAndRemove_of_found hx hmem hc, Option.getD_some, hl2]

theorem update_found_missing {h : Heap} {m : BMap} {c : Card} {d : AnswerDifficulty}
    {k : Nat} {r : Nat} (hx : Exclusive h m) (hmem : (k, r) ∈ m)
    (hc : c ∈ readRef h r) (hl2 : lookupRef m (targetBucket k d) = none) :
    update h m c d =
      (h.set r ((readRef h r).erase c) ++ [{c}],
        m ++ [(targetBucket k d, (h.set r ((readRef h r).erase c)).length)]) := by
  simp only [update, findAndRemove_of_found hx hmem hc, Option.getD_some, hl2]

/-! ### The master characterization of `update`

On a valid, exclusive state, the contents of bucket `i` after
`update h m c d` are those of bucket `i` before, with the updated card
removed, and inserted again exactly at the destination bucket. -/

theorem update_cardsAt (h : Heap) (m : BMap) (c : Card) (d : AnswerDifficulty)
    (hv : ValidMap h m) (hx : Exclusive h m) (i : Nat) :
    cardsAt (update h m c d).1 (update h m c d).2 i =
      if i = targetBucket ((findCurrent h m c).getD 0) d then
        insert c ((cardsAt h m i).erase c)
      else (cardsAt h m i).erase c := by
  obtain ⟨hk, hr, hlt⟩ := hv
  by_cases hpres : ∃ p ∈ m, c ∈ readRef h p.2
  · -- the card is in some bucket of the input
    obtain ⟨⟨k, r⟩, hmem, hc⟩ := hpres
    have hfc : findCurrent h m c = some k := findCurrent_of_found hx hmem hc
    rw [hfc]
    simp only [Option.getD_some]
    have hrlt : r < h.length := hlt _ hmem
    have hlk : lookupRef m k = some r := mem_lookupRef hk hmem
    have hother : ∀ j r3, (j, r3) ∈ m → (j, r3) ≠ (k, r) → c ∉ readRef h r3 := by
      intro j r3 hmem3 hne hc3
      exact hne (exclusive_unique hx hmem3 hmem hc3 hc)
    cases hl2 : lookupRef m (targetBucket k d) with
    | some r2 =>
      rw [update_found_existing hx hmem hc hl2]
      have hmem2 : (targetBucket k d, r2) ∈ m := lookupRef_mem hl2
      have hr2lt : r2 < h.length := hlt _ hmem2
      have hT : c ∉ readRef (h.set r ((readRef h r).erase c)) r2 := by
        by_cases hr2r : r2 = r
        · subst hr2r
          rw [readRef_set_self h _ hrlt]
          exact Finset.not_mem_erase c _
        · rw [readRef_set_ne h _ (fun hh => hr2r hh.symm)]
          exact hother _ _ hmem2 (fun hh => hr2r (congrArg Prod.snd hh))
      by_cases hi : i = targetBucket k d
      · subst hi
        rw [if_pos rfl]
        have e1 : cardsAt ((h.set r ((readRef h r).erase c)).set r2
            (insert c (readRef (h.set r ((readRef h r).erase c)) r2))) m
              (targetBucket k d) =
            readRef ((h.set r ((readRef h r).erase c)).set r2
              (insert c (readRef (h.set r ((readRef h r).erase c)) r2))) r2 :=
          cardsAt_eq_readRef hk hmem2
        rw [e1, readRef_set_self _ _ (by simpa using hr2lt)]
        rw [cardsAt_eq_readRef hk hmem2]
        by_cases hr2r : r2 = r
        · subst hr2r
          rw [readRef_set_self h _ hrlt]
        · rw [readRef_set_ne h _ (fun hh => hr2r hh.symm),
            Finset.erase_eq_of_not_mem (hother _ _ hmem2
              (fun hh => hr2r (congrArg Prod.snd hh)))]
      · rw [if_neg hi]
        cases hli : lookupRef m i with
        | none =>
          simp [cardsAt, hli]
        | some r3 =>
          have hmem3 : (i, r3) ∈ m := lookupRef_mem hli
          have hr3r2 : r3 ≠ r2 := by
            intro hh
            exact hi (congrArg Prod.fst
              (List.inj_on_of_nodup_map hr hmem3 hmem2 (by simpa using hh)))
          rw [cardsAt_eq_readRef hk hmem3, cardsAt_eq_readRef hk hmem3,
            readRef_set_ne _ _ (fun hh => hr3r2 hh.symm)]
          by_cases hik : i = k
          · subst hik
            have hr3r : r3 = r := by
              rw [hlk] at hli
              injection hli with hli
              exact hli.symm
            subst hr3r
            rw [readRef_set_self h _ hrlt]
          · have hr3r : r3 ≠ r := by
              intro hh
              exact hik (congrArg Prod.fst
                (List.inj_on_of_nodup_map hr hmem3 hmem (by simpa using hh)))
            rw [readRef_set_ne h _ (fun hh => hr3r hh.symm),
              Finset.erase_eq_of_not_mem (hother _ _ hmem3
                (fun hh => hik (congrArg Prod.fst hh)))]
    | none =>
      rw [update_found_missing hx hmem hc hl2]
      simp only [List.length_set]
      by_cases hi : i = targetBucket k d
      · subst hi
        rw [if_pos rfl]
        have hlapp : lookupRef (m ++ [(targetBucket k d, h.length)])
            (targetBucket k d) = some h.length := by
          rw [lookupRef_append_none hl2]
          simp [lookupRef]
        rw [show cardsAt (h.set r ((readRef h r).erase c) ++ [{c}])
            (m ++ [(targetBucket k d, h.length)]) (targetBucket k d) =
            readRef (h.set r ((readRef h r).erase c) ++ [{c}]) h.length by
          simp [cardsAt, hlapp]]
        rw [show readRef (h.set r ((readRef h r).erase c) ++ [{c}]) h.length = {c} by
          rw [← List.length_set h r ((readRef h r).erase c)]
          exact readRef_append_self _ _]
        simp [cardsAt, hl2]
      · rw [if_neg hi]
        cases hli : lookupRef m i with
        | none =>
          have hlapp : lookupRef (m ++ [(targetBucket k d, h.length)]) i = none := by
            rw [lookupRef_append_none hli]
            simp only [lookupRef]
            rw [if_neg (fun hh => hi hh.symm)]
          simp [cardsAt, hli, hlapp]
        | some r3 =>
          have hmem3 : (i, r3) ∈ m := lookupRef_mem hli
          have hr3lt : r3 < h.length := hlt _ hmem3
          have hlapp : lookupRef (m ++ [(targetBucket k d, h.length)]) i = some r3 :=
            lookupRef_append_some hli
          rw [show cardsAt (h.set r ((readRef h r).erase c) ++ [{c}])
              (m ++ [(targetBucket k d, h.length)]) i =
              readRef (h.set r ((readRef h r).erase c) ++ [{c}]) r3 by
            simp [cardsAt, hlapp]]
          rw [readRef_append_lt _ _ (by simpa using hr3lt)]
          rw [cardsAt_eq_readRef hk hmem3]
          by_cases hik : i = k
          · subst hik
            have hr3r : r3 = r := by
              rw [hlk] at hli
              injection hli with hli
              exact hli.symm
            subst hr3r
            rw [readRef_set_self h _ hrlt]
          · have hr3r : r3 ≠ r := by
              intro hh
              exact hik (congrArg Prod.fst
                (List.inj_on_of_nodup_map hr hmem3 hmem (by simpa using hh)))
            rw [readRef_set_ne h _ (fun hh => hr3r hh.symm),
              Finset.erase_eq_of_not_mem (hother _ _ hmem3
                (fun hh => hik (congrArg Prod.fst hh)))]
  · -- the card is in no bucket of the input
    push_neg at hpres
    have hfc : findCurrent h m c = none := findCurrent_of_absent hpres
    rw [hfc]
    simp only [Option.getD_none]
    cases hl2 : lookupRef m (targetBucket 0 d) with
    | some r2 =>
      rw [update_absent_existing hpres hl2]
      have hmem2 : (targetBucket 0 d, r2) ∈ m := lookupRef_mem hl2
      have hr2lt : r2 < h.length := hlt _ hmem2
      by_cases hi : i = targetBucket 0 d
      · subst hi
        rw [if_pos rfl]
        rw [cardsAt_eq_readRef hk hmem2, cardsAt_eq_readRef hk hmem2,
          readRef_set_self h _ hr2lt,
          Finset.erase_eq_of_not_mem (hpres _ hmem2)]
      · rw [if_neg hi]
        cases hli : lookupRef m i with
        | none =>
          simp [cardsAt, hli]
        | some r3 =>
          have hmem3 : (i, r3) ∈ m := lookupRef_mem hli
          have hr3r2 : r3 ≠ r2 := by
            intro hh
            exact hi (congrArg Prod.fst
              (List.inj_on_of_nodup_map hr hmem3 hmem2 (by simpa using hh)))
          rw [cardsAt_eq_readRef hk hmem3, cardsAt_eq_readRef hk hmem3,
            readRef_set_ne h _ (fun hh => hr3r2 hh.symm),
            Finset.erase_eq_of_not_mem (hpres _ hmem3)]
    | none =>
      rw [update_absent_missing hpres hl2]
      by_cases hi : i = targetBucket 0 d
      · subst hi
        rw [if_pos rfl]
        have hlapp : lookupRef (m ++ [(targetBucket 0 d, h.length)])
            (targetBucket 0 d) = some h.length := by
          rw [lookupRef_append_none hl2]
          simp [lookupRef]
        rw [show cardsAt (h ++ [{c}]) (m ++ [(targetBucket 0 d, h.length)])
            (targetBucket 0 d) =
            readRef (h ++ [{c}]) h.length by simp [cardsAt, hlapp]]
        rw [readRef_append_self]
        simp [cardsAt, hl2]
      · rw [if_neg hi]
        cases hli : lookupRef m i with
        | none =>
          have hlapp : lookupRef (m ++ [(targetBucket 0 d, h.length)]) i = none := by
            rw [lookupRef_append_none hli]
            simp only [lookupRef]
            rw [if_neg (fun hh => hi hh.symm)]
          simp [cardsAt, hli, hlapp]
        | some r3 =>
          have hmem3 : (i, r3) ∈ m := lookupRef_mem hli
          have hr3lt : r3 < h.length := hlt _ hmem3
          have hlapp : lookupRef (m ++ [(targetBucket 0 d, h.length)]) i = some r3 :=
            lookupRef_append_some hli
          rw [show cardsAt (h ++ [{c}]) (m ++ [(targetBucket 0 d, h.length)]) i =
              readRef (h ++ [{c}]) r3 by simp [cardsAt, hlapp]]
          rw [readRef_append_lt _ _ hr3lt, cardsAt_eq_readRef hk hmem3,
            Finset.erase_eq_of_not_mem (hpres _ hmem3)]

/-! ### Derived facts about `update`: validity, exclusivity, counting -/

theorem exclusive_cardsAt_unique {h : Heap} {m : BMap} (hx : Exclusive h m)
    {x : Card} {i j : Nat} (hi : x ∈ cardsAt h m i) (hj : x ∈ cardsAt h m j) :
    i = j := by
  obtain ⟨r, hli, hcr⟩ := mem_cardsAt.1 hi
  obtain ⟨s, hlj, hcs⟩ := mem_cardsAt.1 hj
  exact congrArg Prod.fst
    (exclusive_unique hx (lookupRef_mem hli) (lookupRef_mem hlj) hcr hcs)

theorem exclusive_of_cardsAt {h : Heap} {m : BMap} (hk : (m.map Prod.fst).Nodup)
    (hfun : ∀ x i j, x ∈ cardsAt h m i → x ∈ cardsAt h m j → i = j) :
    Exclusive h m := by
  have hnd : m.Nodup := List.Nodup.of_map _ hk
  refine hnd.imp_of_mem ?_
  intro p q hp hq hpq
  obtain ⟨p1, p2⟩ := p
  obtain ⟨q1, q2⟩ := q
  apply Finset.eq_empty_iff_forall_not_mem.2
  intro x hx
  obtain ⟨hx1, hx2⟩ := Finset.mem_inter.1 hx
  have h1 : x ∈ cardsAt h m p1 := by
    rw [cardsAt_eq_readRef hk hp]
    exact hx1
  have h2 : x ∈ cardsAt h m q1 := by
    rw [cardsAt_eq_readRef hk hq]
    exact hx2
  exact hpq (List.inj_on_of_nodup_map hk hp hq (hfun x p1 q1 h1 h2))

theorem key_mem_of_lookupRef_none {m : BMap} {i : Nat}
    (hl : lookupRef m i = none) : i ∉ m.map Prod.fst := by
  induction m with
  | nil => simp
  | cons p rest ih =>
    obtain ⟨k0, r0⟩ := p
    by_cases hk : k0 = i
    · subst hk
      simp [lookupRef] at hl
    · simp only [lookupRef, if_neg hk] at hl
      simp only [List.map_cons, List.mem_cons]
      push_neg
      exact ⟨fun hh => hk hh.symm, ih hl⟩

theorem update_valid {h : Heap} {m : BMap} {c : Card} {d : AnswerDifficulty}
    (hv : ValidMap h m) (hx : Exclusive h m) :
    ValidMap (update h m c d).1 (update h m c d).2 := by
  obtain ⟨hk, hr, hlt⟩ := hv
  have happ : ∀ nb : Nat, lookupRef m nb = none → ∀ len : Nat, len = h.length →
      ((m ++ [(nb, len)]).map Prod.fst).Nodup ∧
      ((m ++ [(nb, len)]).map Prod.snd).Nodup ∧
      ∀ p ∈ m ++ [(nb, len)], p.2 < h.length + 1 := by
    intro nb hl2 len hlen
    subst hlen
    refine ⟨?_, ?_, ?_⟩
    · rw [List.map_append, List.nodup_append]
      refine ⟨hk, List.nodup_singleton _, ?_⟩
      intro a ha hb
      simp only [List.map_cons, List.map_nil, List.mem_singleton] at hb
      subst hb
      exact key_mem_of_lookupRef_none hl2 ha
    · rw [List.map_append, List.nodup_append]
      refine ⟨hr, List.nodup_singleton _, ?_⟩
      intro a ha hb
      simp only [List.map_cons, List.map_nil, List.mem_singleton] at hb
      subst hb
      obtain ⟨p, hp, hpa⟩ := List.mem_map.1 ha
      have := hlt p hp
      omega
    · intro p hp
      rcases List.mem_append.1 hp with hp1 | hp2
      · have := hlt p hp1
        omega
      · simp only [List.mem_singleton] at hp2
        subst hp2
        omega
  by_cases hpres : ∃ p ∈ m, c ∈ readRef h p.2
  · obtain ⟨⟨k, r⟩, hmem, hc⟩ := hpres
    cases hl2 : lookupRef m (targetBucket k d) with
    | some r2 =>
      rw [update_found_existing hx hmem hc hl2]
      exact ⟨hk, hr, fun p hp => by simpa using hlt p hp⟩
    | none =>
      rw [update_found_missing hx hmem hc hl2]
      obtain ⟨h1, h2, h3⟩ := happ _ hl2 _ (List.length_set h r _)
      refine ⟨h1, by simpa [List.length_set] using h2, ?_⟩
      intro p hp
      have := h3 p (by simpa [List.length_set] using hp)
      simpa [List.length_set] using this
  · push_neg at hpres
    cases hl2 : lookupRef m (targetBucket 0 d) with
    | some r2 =>
      rw [update_absent_existing hpres hl2]
      exact ⟨hk, hr, fun p hp => by simpa using hlt p hp⟩
    | none =>
      rw [update_absent_missing hpres hl2]
      obtain ⟨h1, h2, h3⟩ := happ _ hl2 _ rfl
      refine ⟨h1, h2, ?_⟩
      intro p hp
      have := h3 p hp
      simpa using this

theorem update_exclusive {h : Heap} {m : BMap} {c : Card} {d : AnswerDifficulty}
    (hv : ValidMap h m) (hx : Exclusive h m) :
    Exclusive (update h m c d).1 (update h m c d).2 := by
  have hv2 := @update_valid h m c d hv hx
  apply exclusive_of_cardsAt hv2.1
  intro x i j hxi hxj
  rw [update_cardsAt h m c d hv hx i] at hxi
  rw [update_cardsAt h m c d hv hx j] at hxj
  by_cases hxc : x = c
  · subst hxc
    split_ifs at hxi hxj with h1 h2 h2
    · rw [h1, h2]
    · exact absurd ((Finset.mem_erase.1 hxj).1 rfl) (fun hh => hh)
    · exact absurd ((Finset.mem_erase.1 hxi).1 rfl) (fun hh => hh)
    · exact absurd ((Finset.mem_erase.1 hxi).1 rfl) (fun hh => hh)
  · have hmi : x ∈ cardsAt h m i := by
      split_ifs at hxi with h1
      · rcases Finset.mem_insert.1 hxi with hh | hh
        · exact absurd hh hxc
        · exact (Finset.mem_erase.1 hh).2
      · exact (Finset.mem_erase.1 hxi).2
    have hmj : x ∈ cardsAt h m j := by
      split_ifs at hxj with h1
      · rcases Finset.mem_insert.1 hxj with hh | hh
        · exact absurd hh hxc
        · exact (Finset.mem_erase.1 hh).2
      · exact (Finset.mem_erase.1 hxj).2
    exact exclusive_cardsAt_unique hx hmi hmj

theorem runUpdates_valid_exclusive (l : List (Card × AnswerDifficulty)) :
    ∀ h m, ValidMap h m → Exclusive h m →
      ValidMap (runUpdates h m l).1 (runUpdates h m l).2 ∧
      Exclusive (runUpdates h m l).1 (runUpdates h m l).2 := by
  induction l with
  | nil => exact fun h m hv hx => ⟨hv, hx⟩
  | cons p rest ih =>
    intro h m hv hx
    obtain ⟨c, d⟩ := p
    simp only [runUpdates]
    exact ih _ _ (@update_valid h m c d hv hx) (@update_exclusive h m c d hv hx)

theorem findCurrent_getD_spec {h : Heap} {m : BMap} {c : Card}
    (hk : (m.map Prod.fst).Nodup) (hx : Exclusive h m) :
    c ∈ cardsAt h m ((findCurrent h m c).getD 0) ∨
      ((∀ p ∈ m, c ∉ readRef h p.2) ∧ (findCurrent h m c).getD 0 = 0) := by
  by_cases hpres : ∃ p ∈ m, c ∈ readRef h p.2
  · obtain ⟨⟨k, r⟩, hmem, hc⟩ := hpres
    left
    rw [findCurrent_of_found hx hmem hc]
    simp only [Option.getD_some]
    rw [cardsAt_eq_readRef hk hmem]
    exact hc
  · push_neg at hpres
    right
    rw [findCurrent_of_absent hpres]
    exact ⟨hpres, rfl⟩

theorem targetBucket_le {current : Nat} (d : AnswerDifficulty) (hcur : current ≤ 5) :
    targetBucket current d ≤ 4 := by
  cases d <;> (simp only [targetBucket]; omega)

/-! ### Counting lemmas -/

theorem totalCount_set_of_ref_absent {h : Heap} {m : BMap} {r : Nat}
    {s : Finset Card} (hab : ∀ p ∈ m, p.2 ≠ r) :
    totalCount (h.set r s) m = totalCount h m := by
  unfold totalCount
  congr 1
  apply List.map_congr_left
  intro p hp
  rw [readRef_set_ne h s (fun hh => hab p hp hh.symm)]

theorem totalCount_set_of_mem {h : Heap} {s : Finset Card} {m : BMap} {k : Nat}
    {r : Nat} (hr : (m.map Prod.snd).Nodup) (hmem : (k, r) ∈ m)
    (hrlt : r < h.length) :
    totalCount (h.set r s) m + (readRef h r).card = totalCount h m + s.card := by
  induction m with
  | nil => simp at hmem
  | cons p rest ih =>
    obtain ⟨k0, r0⟩ := p
    simp only [List.map_cons, List.nodup_cons] at hr
    rcases List.mem_cons.1 hmem with heq | hrest
    · cases heq
      have hrest_ne : ∀ p ∈ rest, p.2 ≠ r := by
        intro p hp hh
        exact hr.1 (hh ▸ List.mem_map.2 ⟨p, hp, rfl⟩)
      have hrst : totalCount (h.set r s) rest = totalCount h rest :=
        @totalCount_set_of_ref_absent h rest r s hrest_ne
      unfold totalCount at hrst ⊢
      simp only [List.map_cons, List.sum_cons]
      rw [readRef_set_self h s hrlt, hrst]
      omega
    · have hr0ne : r0 ≠ r := by
        intro hh
        subst hh
        exact hr.1 (List.mem_map.2 ⟨(k, r0), hrest, rfl⟩)
      have hih := ih hr.2 hrest
      unfold totalCount at hih ⊢
      simp only [List.map_cons, List.sum_cons]
      rw [readRef_set_ne h s (fun hh => hr0ne hh.symm)]
      omega

theorem totalCount_append_heap {h : Heap} {m : BMap} {l : Heap}
    (hlt : ∀ p ∈ m, p.2 < h.length) : totalCount (h ++ l) m = totalCount h m := by
  unfold totalCount
  congr 1
  apply List.map_congr_left
  intro p hp
  rw [readRef_append_lt h l (hlt p hp)]

theorem totalCount_append_entry {h : Heap} {m : BMap} {k : Nat} {r : Nat} :
    totalCount h (m ++ [(k, r)]) = totalCount h m + (readRef h r).card := by
  unfold totalCount
  rw [List.map_append, List.sum_append]
  simp

theorem update_totalCount_of_present {h : Heap} {m : BMap} {c : Card}
    {d : AnswerDifficulty} (hv : ValidMap h m) (hx : Exclusive h m)
    (hpres : ∃ p ∈ m, c ∈ readRef h p.2) :
    totalCount (update h m c d).1 (update h m c d).2 = totalCount h m := by
  obtain ⟨hk, hr, hlt⟩ := hv
  obtain ⟨⟨k, r⟩, hmem, hc⟩ := hpres
  have hrlt : r < h.length := hlt _ hmem
  have hcc : ((readRef h r).erase c).card + 1 = (readRef h r).card :=
    Finset.card_erase_add_one hc
  have hother : ∀ j r3, (j, r3) ∈ m → (j, r3) ≠ (k, r) → c ∉ readRef h r3 := by
    intro j r3 hmem3 hne hc3
    exact hne (exclusive_unique hx hmem3 hmem hc3 hc)
  cases hl2 : lookupRef m (targetBucket k d) with
  | some r2 =>
    rw [update_found_existing hx hmem hc hl2]
    dsimp only
    have hmem2 : (targetBucket k d, r2) ∈ m := lookupRef_mem hl2
    have hr2lt : r2 < h.length := hlt _ hmem2
    have e1 : totalCount (h.set r ((readRef h r).erase c)) m + (readRef h r).card =
        totalCount h m + ((readRef h r).erase c).card :=
      totalCount_set_of_mem hr hmem hrlt
    have e2 : totalCount ((h.set r ((readRef h r).erase c)).set r2
          (insert c (readRef (h.set r ((readRef h r).erase c)) r2))) m +
        (readRef (h.set r ((readRef h r).erase c)) r2).card =
        totalCount (h.set r ((readRef h r).erase c)) m +
          (insert c (readRef (h.set r ((readRef h r).erase c)) r2)).card :=
      totalCount_set_of_mem hr hmem2 (by simpa using hr2lt)
    have hcnot : c ∉ readRef (h.set r ((readRef h r).erase c)) r2 := by
      by_cases hr2r : r2 = r
      · subst hr2r
        rw [readRef_set_self h _ hrlt]
        exact Finset.not_mem_erase c _
      · rw [readRef_set_ne h _ (fun hh => hr2r hh.symm)]
        exact hother _ _ hmem2 (fun hh => hr2r (congrArg Prod.snd hh))
    have e3 : (insert c (readRef (h.set r ((readRef h r).erase c)) r2)).card =
        (readRef (h.set r ((readRef h r).erase c)) r2).card + 1 :=
      Finset.card_insert_of_not_mem hcnot
    omega
  | none =>
    rw [update_found_missing hx hmem hc hl2]
    dsimp only
    have e1 : totalCount (h.set r ((readRef h r).erase c)) m + (readRef h r).card =
        totalCount h m + ((readRef h r).erase c).card :=
      totalCount_set_of_mem hr hmem hrlt
    have e2 : totalCount (h.set r ((readRef h r).erase c) ++ [{c}]) m =
        totalCount (h.set r ((readRef h r).erase c)) m :=
      totalCount_append_heap (fun p hp => by simpa using hlt p hp)
    rw [totalCount_append_entry, e2, readRef_append_self]
    have e4 : ({c} : Finset Card).card = 1 := Finset.card_singleton c
    omega

/-! ### Lemmas about `toBucketSets` -/

theorem maxKey_cons (q : Nat × Nat) (rest : BMap) :
    maxKey (q :: rest) = max (q.1 : Int) (maxKey rest) := rfl

theorem maxKey_ge {m : BMap} {p : Nat × Nat} (hp : p ∈ m) :
    (p.1 : Int) ≤ maxKey m := by
  induction m with
  | nil => simp at hp
  | cons q rest ih =>
    rw [maxKey_cons]
    rcases List.mem_cons.1 hp with hh | hh
    · subst hh
      exact le_max_left _ _
    · exact le_trans (ih hh) (le_max_right _ _)

theorem key_lt_len {m : BMap} {p : Nat × Nat} (hp : p ∈ m) :
    p.1 < (maxKey m + 1).toNat := by
  have h1 : (p.1 : Int) ≤ maxKey m := maxKey_ge hp
  omega

theorem getD_set_self {α : Type} (l : List α) (j : Nat) (x d : α) (hj : j < l.length) :
    (l.set j x).getD j d = x := by
  simp [List.getD_eq_getElem?_getD, List.getElem?_set_self hj]

theorem getD_set_ne {α : Type} (l : List α) {i j : Nat} (x d : α) (hij : i ≠ j) :
    (l.set j x).getD i d = l.getD i d := by
  simp [List.getD_eq_getElem?_getD, List.getElem?_set_ne (fun hh => hij hh.symm)]

theorem getD_replicate (n i : Nat) :
    (List.replicate n (∅ : Finset Card)).getD i ∅ = ∅ := by
  rcases Nat.lt_or_ge i n with hlt | hge
  · simp [List.getD_eq_getElem?_getD, List.getElem?_replicate, hlt]
  · simp [List.getD_eq_getElem?_getD, List.getElem?_replicate, Nat.not_lt.2 hge]

theorem foldl_set_getD (h : Heap) :
    ∀ (m : BMap) (init : List (Finset Card)),
      (m.map Prod.fst).Nodup → (∀ p ∈ m, p.1 < init.length) → ∀ i,
      (m.foldl (fun arr p => arr.set p.1 (readRef h p.2)) init).getD i ∅ =
        match lookupRef m i with
        | some r => readRef h r
        | none => init.getD i ∅ := by
  intro m
  induction m with
  | nil =>
    intro init _ _ i
    rfl
  | cons p rest ih =>
    intro init hk hlt i
    obtain ⟨k, r⟩ := p
    simp only [List.map_cons, List.nodup_cons] at hk
    simp only [List.foldl_cons]
    have hrec := ih (init.set k (readRef h r)) hk.2
      (fun q hq => by simpa using hlt q (List.mem_cons_of_mem _ hq)) i
    rw [hrec]
    by_cases hik : k = i
    · subst hik
      have hnone : lookupRef rest k = none := lookupRef_eq_none hk.1
      simp only [lookupRef, if_pos rfl]
      rw [hnone]
      exact getD_set_self init k _ ∅ (hlt (k, r) (List.mem_cons_self _ _))
    · simp only [lookupRef, if_neg hik]
      cases hl : lookupRef rest i with
      | some r2 => rfl
      | none =>
        rw [getD_set_ne init _ ∅ (fun hh => hik hh.symm)]

theorem foldl_set_length (h : Heap) :
    ∀ (m : BMap) (init : List (Finset Card)),
      (m.foldl (fun arr p => arr.set p.1 (readRef h p.2)) init).length =
        init.length := by
  intro m
  induction m with
  | nil =>
    intro init
    rfl
  | cons p rest ih =>
    intro init
    simp only [List.foldl_cons]
    rw [ih]
    exact List.length_set init _ _

theorem toBucketSets_length (h : Heap) (m : BMap) :
    (toBucketSets h m).length = (maxKey m + 1).toNat := by
  unfold toBucketSets
  rw [foldl_set_length]
  exact List.length_replicate _ _

theorem toBucketSets_getD {h : Heap} {m : BMap} (hk : (m.map Prod.fst).Nodup)
    (i : Nat) : (toBucketSets h m).getD i ∅ = cardsAt h m i := by
  unfold toBucketSets cardsAt
  rw [foldl_set_getD h m _ hk
    (fun p hp => by simpa using key_lt_len hp) i]
  cases hl : lookupRef m i with
  | some r => rfl
  | none =>
    rw [getD_replicate]

theorem sum_map_card_set :
    ∀ (l : List (Finset Card)) (j : Nat) (s : Finset Card), j < l.length →
      l.getD j ∅ = ∅ →
      ((l.set j s).map Finset.card).sum = (l.map Finset.card).sum + s.card := by
  intro l
  induction l with
  | nil =>
    intro j s hj _
    simp at hj
  | cons a rest ih =>
    intro j s hj hget
    cases j with
    | zero =>
      have ha : a = ∅ := hget
      subst ha
      simp [List.set]
      omega
    | succ j2 =>
      simp only [List.set, List.map_cons, List.sum_cons]
      rw [ih j2 s (by simpa using hj) hget]
      omega

theorem foldl_set_sum (h : Heap) :
    ∀ (m : BMap) (init : List (Finset Card)),
      (m.map Prod.fst).Nodup →
      (∀ p ∈ m, p.1 < init.length ∧ init.getD p.1 ∅ = ∅) →
      ((m.foldl (fun arr p => arr.set p.1 (readRef h p.2)) init).map Finset.card).sum
        = (init.map Finset.card).sum + totalCount h m := by
  intro m
  induction m with
  | nil =>
    intro init _ _
    simp [totalCount]
  | cons p rest ih =>
    intro init hk hcond
    obtain ⟨k, r⟩ := p
    simp only [List.map_cons, List.nodup_cons] at hk
    obtain ⟨hklt, hkget⟩ := hcond (k, r) (List.mem_cons_self _ _)
    have hcond2 : ∀ q ∈ rest, q.1 < (init.set k (readRef h r)).length ∧
        (init.set k (readRef h r)).getD q.1 ∅ = ∅ := by
      intro q hq
      have hqk : q.1 ≠ k := by
        intro hh
        exact hk.1 (hh ▸ List.mem_map.2 ⟨q, hq, rfl⟩)
      obtain ⟨h1, h2⟩ := hcond q (List.mem_cons_of_mem _ hq)
      exact ⟨by simpa using h1, by rw [getD_set_ne init _ ∅ hqk]; exact h2⟩
    simp only [List.foldl_cons]
    rw [ih (init.set k (readRef h r)) hk.2 hcond2,
      sum_map_card_set init k (readRef h r) hklt hkget]
    unfold totalCount
    simp only [List.map_cons, List.sum_cons]
    omega

theorem toBucketSets_sum (h : Heap) (m : BMap) (hk : (m.map Prod.fst).Nodup) :
    ((toBucketSets h m).map Finset.card).sum = totalCount h m := by
  unfold toBucketSets
  rw [foldl_set_sum h m _ hk
    (fun p hp => ⟨by simpa using key_lt_len hp, getD_replicate _ _⟩)]
  simp

/-! ### Lemmas about `computeProgress` -/

theorem computeProgress_arr_totalCards {α : Type} (h : Heap)
    (bs : List (Finset Card)) (hist : α) :
    (computeProgress h (.arr bs) hist).totalCards = (bs.map Finset.card).sum := by
  have hgen : ∀ (l : List (Nat × Finset Card)) (pr : Progress),
      (l.foldl (fun pr ib => ⟨pr.totalCards + ib.2.card,
        setSparse pr.bucketDistribution ib.1 ib.2.card⟩) pr).totalCards =
        pr.totalCards + (l.map fun ib => ib.2.card).sum := by
    intro l
    induction l with
    | nil =>
      intro pr
      simp
    | cons q rest ih =>
      intro pr
      simp only [List.foldl_cons]
      rw [ih]
      simp only [List.map_cons, List.sum_cons]
      omega
  unfold computeProgress
  rw [hgen]
  have henum : (bs.enum.map fun ib => ib.2.card) = bs.map Finset.card := by
    rw [show (fun ib : Nat × Finset Card => ib.2.card) =
        Finset.card ∘ Prod.snd from rfl, ← List.map_map, List.enum_map_snd]
  rw [henum]
  simp

theorem computeProgress_map_totalCards {α : Type} (h : Heap) (m : BMap) (hist : α) :
    (computeProgress h (.map m) hist).totalCards = totalCount h m := by
  have hgen : ∀ (l : BMap) (pr : Progress),
      (l.foldl (fun pr p => ⟨pr.totalCards + (readRef h p.2).card,
        setSparse pr.bucketDistribution p.1 (readRef h p.2).card⟩) pr).totalCards =
        pr.totalCards + totalCount h l := by
    intro l
    induction l with
    | nil =>
      intro pr
      simp [totalCount]
    | cons q rest ih =>
      intro pr
      simp only [List.foldl_cons]
      rw [ih]
      unfold totalCount
      simp only [List.map_cons, List.sum_cons]
      omega
  unfold computeProgress
  rw [hgen]
  simp

/-! ### Lemmas about `getHint` -/

theorem trim_empty : trim ("") = "" := rfl

theorem getHint_cases (card : Flashcard) :
    (trim card.hint ≠ "" → getHint card = card.hint) ∧
      (trim card.hint = "" → card.tags ≠ [] →
        getHint card = "Try to remember a card related to: " ++
          String.intercalate (", ") card.tags) ∧
      (trim card.hint = "" → card.tags = [] →
        getHint card = "First few characters: " ++ card.front.take 5 ++ "...") := by
  refine ⟨?_, ?_, ?_⟩
  · intro ht
    have hne : card.hint ≠ "" := by
      intro hh
      rw [hh] at ht
      exact ht trim_empty
    unfold getHint
    rw [if_pos ⟨hne, ht⟩]
  · intro ht htags
    unfold getHint
    rw [if_neg (fun hh => hh.2 ht), if_pos (List.length_pos.2 htags)]
  · intro ht htags
    unfold getHint
    rw [if_neg (fun hh => hh.2 ht), htags]
    rw [if_neg (by simp)]

/-! ## The claims -/

/-- C1: the claim describes the intended Modified-Leitner selection, but the
selection loop of `practice` is commented out in the source, so `practice`
returns the empty set on every input — contradicting the function's own
documentation and the repository's tests ("should always practice bucket 0 on
any day", which uses bucket 0 = one card and day 10).  At that test input the
code returns the empty set while the intended policy selects the card. -/
theorem practice_always_empty_vs_intended :
    practice [({0} : Finset Card)] 10 = ∅ ∧
      (0 : Card) ∈ practiceIntended [({0} : Finset Card)] 10 ∧
      ∀ (buckets : List (Finset Card)) (day : Nat), practice buckets day = ∅ :=
  ⟨rfl, by decide, fun _ _ => rfl⟩

/-- C2: the claim says `update` leaves the input mapping unmodified, but the
shallow copy `new Map(buckets)` shares the `Set` objects with the input, and
the scan deletes the card from the shared set.  For the input map
`{0 ↦ {c}}` and outcome Easy, bucket 0 of the *input* map is empty after the
call (read through the post-call heap), although it held `c` before. -/
theorem update_mutates_input_buckets :
    cardsAt [({0} : Finset Card)] [(0, 0)] 0 = {0} ∧
      cardsAt (update [({0} : Finset Card)] [(0, 0)] 0 .Easy).1 [(0, 0)] 0 = ∅ := by
  decide

/-- C3 as stated is false: its clause "the destination always lies in [0, 4]"
fails when the card sits in a bucket above 5.  With the card in bucket 6 and
outcome Hard, the destination is `max(0, 6 - 1) = 5`, and the card really ends
up in bucket 5, outside `[0, 4]`; the input satisfies the exclusivity
invariant. -/
theorem update_destination_counterexample :
    ValidMap [({0} : Finset Card)] [(6, 0)] ∧
      Exclusive [({0} : Finset Card)] [(6, 0)] ∧
      (0 : Card) ∈ cardsAt (update [({0} : Finset Card)] [(6, 0)] 0 .Hard).1
        (update [({0} : Finset Card)] [(6, 0)] 0 .Hard).2 5 ∧
      ¬(5 ≤ 4) := by
  decide

/-- C3 amended: on a valid mapping satisfying the exclusivity invariant, after
`update` the card is a member of bucket `i` of the result exactly when `i` is
the destination `targetBucket current d` (Wrong → 0, Hard → `max(0, current-1)`
as truncated subtraction, Easy → `min(4, current+1)`); `current` is the bucket
holding the card in the input, or 0 when the card is in no bucket; and the
destination lies in `[0, 4]` provided `current ≤ 5` (in particular whenever
every card of the input lies in buckets 0–4). -/
theorem update_destination_spec (h : Heap) (m : BMap) (c : Card)
    (d : AnswerDifficulty) (hv : ValidMap h m) (hx : Exclusive h m) (i : Nat) :
    (c ∈ cardsAt (update h m c d).1 (update h m c d).2 i ↔
        i = targetBucket ((findCurrent h m c).getD 0) d) ∧
      (c ∈ cardsAt h m ((findCurrent h m c).getD 0) ∨
        ((∀ p ∈ m, c ∉ readRef h p.2) ∧ (findCurrent h m c).getD 0 = 0)) ∧
      ((findCurrent h m c).getD 0 ≤ 5 →
        targetBucket ((findCurrent h m c).getD 0) d ≤ 4) := by
  refine ⟨?_, findCurrent_getD_spec hv.1 hx, fun hle => targetBucket_le d hle⟩
  rw [update_cardsAt h m c d hv hx i]
  by_cases hi : i = targetBucket ((findCurrent h m c).getD 0) d
  · rw [if_pos hi]
    simp [hi]
  · rw [if_neg hi]
    simp [hi, Finset.not_mem_erase]

/-- Witness for the amended C3 at a concrete state: one card in bucket 2,
outcome Easy, queried at bucket 3. -/
theorem update_destination_spec_witness :
    ValidMap [({3} : Finset Card)] [(2, 0)] ∧
      Exclusive [({3} : Finset Card)] [(2, 0)] ∧
      (((3 : Card) ∈ cardsAt (update [({3} : Finset Card)] [(2, 0)] 3 .Easy).1
          (update [({3} : Finset Card)] [(2, 0)] 3 .Easy).2 3 ↔
        3 = targetBucket ((findCurrent [({3} : Finset Card)] [(2, 0)] 3).getD 0)
          .Easy) ∧
      ((3 : Card) ∈ cardsAt [({3} : Finset Card)] [(2, 0)]
          ((findCurrent [({3} : Finset Card)] [(2, 0)] 3).getD 0) ∨
        ((∀ p ∈ [((2 : Nat), (0 : Nat))], (3 : Card) ∉ readRef [({3} : Finset Card)] p.2) ∧
          (findCurrent [({3} : Finset Card)] [(2, 0)] 3).getD 0 = 0)) ∧
      ((findCurrent [({3} : Finset Card)] [(2, 0)] 3).getD 0 ≤ 5 →
        targetBucket ((findCurrent [({3} : Finset Card)] [(2, 0)] 3).getD 0)
          .Easy ≤ 4)) :=
  ⟨by decide, by decide,
    update_destination_spec [({3} : Finset Card)] [(2, 0)] 3 .Easy
      (by decide) (by decide) 3⟩

/-- C4 as stated is false: for a card that is in *no* bucket of the input, the
default-start policy still inserts it, so the total grows by one.  Updating
the empty mapping with any card takes the total from 0 to 1. -/
theorem update_totalCount_counterexample :
    ValidMap ([] : Heap) ([] : BMap) ∧ Exclusive ([] : Heap) ([] : BMap) ∧
      totalCount ([] : Heap) ([] : BMap) = 0 ∧
      totalCount (update [] [] 0 .Wrong).1 (update [] [] 0 .Wrong).2 = 1 := by
  decide

/-- C4 amended: on a valid mapping satisfying the exclusivity invariant, when
the updated card is present in some bucket of the input, the total card count
across all buckets is unchanged by `update`. -/
theorem update_preserves_totalCount (h : Heap) (m : BMap) (c : Card)
    (d : AnswerDifficulty) (hv : ValidMap h m) (hx : Exclusive h m)
    (hpres : ∃ p ∈ m, c ∈ readRef h p.2) :
    totalCount (update h m c d).1 (update h m c d).2 = totalCount h m :=
  update_totalCount_of_present hv hx hpres

/-- Witness for the amended C4: one card in bucket 0, outcome Easy. -/
theorem update_preserves_totalCount_witness :
    ValidMap [({5} : Finset Card)] [(0, 0)] ∧
      Exclusive [({5} : Finset Card)] [(0, 0)] ∧
      (∃ p ∈ [((0 : Nat), (0 : Nat))], (5 : Card) ∈ readRef [({5} : Finset Card)] p.2) ∧
      totalCount (update [({5} : Finset Card)] [(0, 0)] 5 .Easy).1
        (update [({5} : Finset Card)] [(0, 0)] 5 .Easy).2 =
        totalCount [({5} : Finset Card)] [(0, 0)] :=
  ⟨by decide, by decide, by decide,
    update_preserves_totalCount [({5} : Finset Card)] [(0, 0)] 5 .Easy
      (by decide) (by decide) (by decide)⟩

/-- C5: starting from a valid mapping in which each card is in at most one
bucket, after any finite sequence of `update` calls each card is still in at
most one bucket. -/
theorem runUpdates_preserves_exclusivity (h : Heap) (m : BMap)
    (l : List (Card × AnswerDifficulty)) (hv : ValidMap h m) (hx : Exclusive h m) :
    ∀ x i j, x ∈ cardsAt (runUpdates h m l).1 (runUpdates h m l).2 i →
      x ∈ cardsAt (runUpdates h m l).1 (runUpdates h m l).2 j → i = j :=
  fun _ _ _ hi hj =>
    exclusive_cardsAt_unique (runUpdates_valid_exclusive l h m hv hx).2 hi hj

/-- Witness for C5 at a concrete two-step run: card 5 moves 0 → 1 → 0. -/
theorem runUpdates_preserves_exclusivity_witness :
    ValidMap [({5} : Finset Card)] [(0, 0)] ∧
      Exclusive [({5} : Finset Card)] [(0, 0)] ∧ (0 : Nat) = 0 :=
  ⟨by decide, by decide,
    runUpdates_preserves_exclusivity [({5} : Finset Card)] [(0, 0)]
      [(5, .Easy), (5, .Wrong)] (by decide) (by decide) 5 0 0
      (by decide) (by decide)⟩

/-- C6: a card is in bucket `i` of the mapping exactly when it is in the set at
index `i` of the array produced by `toBucketSets` (indices past the end read as
the empty set), so converting back by taking the non-empty entries reconstructs
exactly the (index, card) memberships. -/
theorem toBucketSets_roundtrip (h : Heap) (m : BMap) (hv : ValidMap h m)
    (i : Nat) (c : Card) :
    c ∈ cardsAt h m i ↔ c ∈ (toBucketSets h m).getD i ∅ := by
  rw [toBucketSets_getD hv.1 i]

/-- Witness for C6: card 7 in bucket 3. -/
theorem toBucketSets_roundtrip_witness :
    ValidMap [({7} : Finset Card)] [(3, 0)] ∧
      ((7 : Card) ∈ cardsAt [({7} : Finset Card)] [(3, 0)] 3 ↔
        7 ∈ (toBucketSets [({7} : Finset Card)] [(3, 0)]).getD 3 ∅) :=
  ⟨by decide, toBucketSets_roundtrip [({7} : Finset Card)] [(3, 0)] (by decide) 3 7⟩

/-- C7 as stated is false: `toBucketSets` sizes the array by the largest *key
present*, not the largest non-empty bucket.  A mapping whose only entry is
bucket 3 with an empty set holds no card anywhere, yet the result is a
length-4 array of empty sets rather than the empty sequence. -/
theorem toBucketSets_empty_counterexample :
    (∀ p ∈ [((3 : Nat), (0 : Nat))], readRef [(∅ : Finset Card)] p.2 = ∅) ∧
      toBucketSets [(∅ : Finset Card)] [(3, 0)] ≠ [] ∧
      (toBucketSets [(∅ : Finset Card)] [(3, 0)]).length = 4 := by
  decide

/-- C7 amended: the array's length is exactly one more than the largest key
present in the mapping (`(maxKey m + 1).toNat`, which is 0 for the empty
mapping), so no entry lies beyond the largest key present — and a mapping with
no entries yields the empty sequence. -/
theorem toBucketSets_length_spec (h : Heap) (m : BMap) :
    (toBucketSets h m).length = (maxKey m + 1).toNat ∧
      (m = [] → toBucketSets h m = []) := by
  refine ⟨toBucketSets_length h m, ?_⟩
  intro hm
  subst hm
  rfl

/-- Witness for the amended C7 at the counterexample's input and at the empty
mapping. -/
theorem toBucketSets_length_spec_witness :
    (toBucketSets [(∅ : Finset Card)] [(3, 0)]).length =
        (maxKey [(3, 0)] + 1).toNat ∧
      toBucketSets ([] : Heap) ([] : BMap) = [] :=
  ⟨(toBucketSets_length_spec [(∅ : Finset Card)] [(3, 0)]).1,
    (toBucketSets_length_spec ([] : Heap) ([] : BMap)).2 rfl⟩

/-- C8 as stated is false: the code returns the hint verbatim only when it is
non-empty *after trimming*; a whitespace-only hint is non-empty yet the code
falls through to the tag template. -/
theorem getHint_whitespace_counterexample :
    (" " : String) ≠ "" ∧
      getHint ⟨"Front", "Back", " ", ["x"]⟩ =
        "Try to remember a card related to: x" ∧
      getHint ⟨"Front", "Back", " ", ["x"]⟩ ≠ " " := by
  decide

/-- C8 amended: first match wins with the first guard corrected to "the hint
text contains a non-whitespace character" (non-empty after trimming): (a) such
a hint is returned verbatim; (b) else with at least one tag, the tag template
listing the tags in order, comma-separated; (c) else the template with the
first five characters of the front text and an ellipsis. -/
theorem getHint_priority_spec (card : Flashcard) :
    (trim card.hint ≠ "" → getHint card = card.hint) ∧
      (trim card.hint = "" → card.tags ≠ [] →
        getHint card = "Try to remember a card related to: " ++
          String.intercalate (", ") card.tags) ∧
      (trim card.hint = "" → card.tags = [] →
        getHint card = "First few characters: " ++ card.front.take 5 ++ "...") :=
  getHint_cases card

/-- Witness for the amended C8: one card per branch. -/
theorem getHint_priority_spec_witness :
    getHint ⟨"Front", "Back", "H", ["x"]⟩ = "H" ∧
      getHint ⟨"Front", "Back", "", ["history", "science"]⟩ =
        "Try to remember a card related to: " ++
          String.intercalate (", ") ["history", "science"] ∧
      getHint ⟨"Important Concept", "Back", "", []⟩ =
        "First few characters: " ++ ("Important Concept" : String).take 5 ++ "..." :=
  ⟨(getHint_priority_spec ⟨"Front", "Back", "H", ["x"]⟩).1 (by decide),
    (getHint_priority_spec ⟨"Front", "Back", "", ["history", "science"]⟩).2.1
      (by decide) (by decide),
    (getHint_priority_spec ⟨"Important Concept", "Back", "", []⟩).2.2
      (by decide) (by decide)⟩

/-- C9: progress computed over the array form of a valid mapping and progress
computed directly over the mapping agree on `totalCards`, and both equal the
sum of the bucket sizes. -/
theorem computeProgress_totalCards_agree {α : Type} (h : Heap) (m : BMap)
    (hist : α) (hv : ValidMap h m) :
    (computeProgress h (.arr (toBucketSets h m)) hist).totalCards =
        (computeProgress h (.map m) hist).totalCards ∧
      (computeProgress h (.map m) hist).totalCards = totalCount h m := by
  constructor
  · rw [computeProgress_arr_totalCards, computeProgress_map_totalCards,
      toBucketSets_sum h m hv.1]
  · rw [computeProgress_map_totalCards]

/-- Witness for C9: two cards in buckets 0 and 2. -/
theorem computeProgress_totalCards_agree_witness :
    ValidMap [({1} : Finset Card), {2}] [(0, 0), (2, 1)] ∧
      ((computeProgress [({1} : Finset Card), {2}]
          (.arr (toBucketSets [({1} : Finset Card), {2}] [(0, 0), (2, 1)]))
          (none : Option Unit)).totalCards =
        (computeProgress [({1} : Finset Card), {2}] (.map [(0, 0), (2, 1)])
          (none : Option Unit)).totalCards ∧
      (computeProgress [({1} : Finset Card), {2}] (.map [(0, 0), (2, 1)])
          (none : Option Unit)).totalCards =
        totalCount [({1} : Finset Card), {2}] [(0, 0), (2, 1)]) :=
  ⟨by decide,
    computeProgress_totalCards_agree [({1} : Finset Card), {2}] [(0, 0), (2, 1)]
      (none : Option Unit) (by decide)⟩

/-- C10: on a `buckets` value that is neither an array nor a `Map` (the
fall-through of the runtime type dispatch, e.g. `null` or a number), with any
history value, `computeProgress` runs both type tests, skips both branches and
returns totalCards 0 with an empty distribution — it raises no error (the
embedding is a total function). -/
theorem computeProgress_other {α : Type} (h : Heap) (hist : α) :
    computeProgress h .other hist = ⟨0, []⟩ :=
  rfl

end Flashcards
